import Mathlib

/-!
Shallow embedding of the publisher-confirmation subsystem of lapin:
`src/acknowledgement.rs` (the pending-confirmation table) and `src/wakers.rs`
(the deduplicated waiter registry), together with spec-modelled stand-ins for
the collaborators that live outside the provided sources (`IdSequence`,
`PromisesBroadcaster`, `ReturnedMessages`).

The table's observable effect on its promises is recorded in an explicit event
log: every `resolve`/`reject` invocation on the broadcaster stored under a tag
is appended as an event naming that tag. Broadcaster subscriber handles are
tracked by numeric ids drawn from a fresh-id counter. Both the log and the
counter are modelling devices that make the Rust side effects visible to the
logic; they are never read by the embedded operations themselves.
-/

set_option maxHeartbeats 1000000

namespace Lapin

/-- Payload of a returned (unroutable) message; the table treats it as opaque. -/
abbrev Msg := Nat

/-- Channel error payload (the `Error` cloned into every rejection); opaque to the table. -/
abbrev Err := Nat

/-- Result observed by a publisher awaiting its confirm, carrying an optional
boxed returned message (mirrors `publisher_confirm::Confirmation`). -/
inductive Confirmation where
  | Ack (msg : Option Msg)
  | Nack (msg : Option Msg)
deriving DecidableEq, Repr

/-- One invocation of `resolve` / `reject` on the broadcaster that was stored
under `tag` in the pending map. -/
inductive Event where
  | resolvedE (tag : Nat) (c : Confirmation)
  | rejectedE (tag : Nat) (e : Err)
deriving DecidableEq, Repr

/-- The tag whose broadcaster received this invocation. -/
def Event.tagOf : Event → Nat
  | .resolvedE t _ => t
  | .rejectedE t _ => t

/-- Modelled from the spec: the subscriber-handle surface of
`PromisesBroadcaster` (promise.rs is not under src/). Only the set of live
subscriber handles is tracked, by id; resolution invocations are recorded in
the table's event log instead. -/
structure Bcast where
  subs : List Nat
deriving DecidableEq, Repr

/-- Remove a subscriber handle that has not yet observed resolution. -/
def Bcast.unsubscribe (b : Bcast) (h : Nat) : Bcast :=
  ⟨b.subs.filter (fun x => x ≠ h)⟩

/-- Modelled from the spec: `IdSequence<DeliveryTag>` (id_sequence.rs is not
under src/): a strictly increasing tag sequence whose `current` is the last
issued value, with 0 as the none-issued-yet sentinel. -/
structure IdSequence where
  current : Nat
deriving DecidableEq, Repr

/-- Issue the next delivery tag (strictly greater than every earlier one). -/
def IdSequence.next (s : IdSequence) : Nat × IdSequence :=
  (s.current + 1, ⟨s.current + 1⟩)

/-- Diagnostic payload of the precondition-failed error formatted in
`Inner::drop_pending`: ack/nack kind, the offending tag, the channel id, the
sequence's current value, and the still-outstanding key set. -/
structure AckErr where
  is_ack : Bool
  tag : Nat
  channel_id : Nat
  current : Nat
  outstanding : List Nat
deriving DecidableEq, Repr

/-- Result type of the fallible table calls (`AMQPResult` in the source). -/
abbrev AMQPResult := Except AckErr Unit

/-! Association-list model of the `HashMap<DeliveryTag, PromisesBroadcaster>`.
The Rust map never holds a key twice; the list operations below keep that
shape (insert erases the key first, erase drops every occurrence). -/

/-- Key set of the pending map. -/
def keysOf (m : List (Nat × Bcast)) : List Nat := m.map Prod.fst

/-- Lookup in the pending map (`HashMap::get`). -/
def lookupA (m : List (Nat × Bcast)) (k : Nat) : Option Bcast :=
  match m.find? (fun p => p.1 = k) with
  | some p => some p.2
  | none => none

/-- Removal from the pending map (`HashMap::remove`). -/
def eraseA (m : List (Nat × Bcast)) (k : Nat) : List (Nat × Bcast) :=
  m.filter (fun p => p.1 ≠ k)

/-- Insertion into the pending map (`HashMap::insert`). -/
def insertA (m : List (Nat × Bcast)) (k : Nat) (v : Bcast) : List (Nat × Bcast) :=
  (k, v) :: eraseA m k

/-- Update the value stored under `k`, if present (mutation through
`HashMap::get`'s reference). -/
def updateA (m : List (Nat × Bcast)) (k : Nat) (f : Bcast → Bcast) :
    List (Nat × Bcast) :=
  m.map (fun p => if p.1 = k then (p.1, f p.2) else p)

/-- State of `acknowledgement::Inner`. `returned_messages` is the
spec-modelled buffer of the returned-message collaborator (a queue consumed
one message per resolved entry); `next_handle` and `events` are the modelling
devices described in the file header. -/
structure Inner where
  channel_id : Nat
  delivery_tag : IdSequence
  last : Option (Nat × Nat)
  pending : List (Nat × Bcast)
  returned_messages : List Msg
  next_handle : Nat
  events : List Event
deriving DecidableEq, Repr

/-- `Inner::new`: fresh table for a channel, with the collaborator's buffer
holding an arbitrary initial content. -/
def Inner.new (channel_id : Nat) (returned_messages : List Msg) : Inner :=
  ⟨channel_id, ⟨0⟩, none, [], returned_messages, 0, []⟩

/-- Modelled from the spec: `ReturnedMessages::get_waiting_message`
(returned_messages.rs is not under src/): consume and return the next buffered
message for this channel, if any. -/
def get_waiting_message (s : Inner) : Option Msg × Inner :=
  match s.returned_messages with
  | [] => (none, s)
  | m :: rest => (some m, { s with returned_messages := rest })

/-- `Inner::complete_pending`: fetch the waiting returned message, then resolve
the broadcaster (identified by the tag it was stored under) to Ack/Nack. -/
def complete_pending (s : Inner) (success : Bool) (tag : Nat) : Inner :=
  let r := get_waiting_message s
  let c := if success then Confirmation.Ack r.1 else Confirmation.Nack r.1
  { r.2 with events := r.2.events ++ [Event.resolvedE tag c] }

/-- `Inner::drop_pending`: remove the entry for `delivery_tag` and resolve it,
or fail with the diagnostic precondition error when the tag is unknown. -/
def drop_pending (s : Inner) (delivery_tag : Nat) (success : Bool) :
    AMQPResult × Inner :=
  match lookupA s.pending delivery_tag with
  | some _ =>
      (Except.ok (),
       complete_pending { s with pending := eraseA s.pending delivery_tag }
         success delivery_tag)
  | none =>
      (Except.error
        ⟨success, delivery_tag, s.channel_id, s.delivery_tag.current,
         keysOf s.pending⟩, s)

/-- `Inner::drop_all`: drain the whole map first, then resolve every drained
entry in turn. -/
def drop_all (s : Inner) (success : Bool) : Inner :=
  (s.pending).foldl (fun t p => complete_pending t success p.1)
    { s with pending := [] }

/-- The loop body of `Inner::complete_pending_before`: walk the collected tag
set, dropping each tag and keeping the last error encountered in `res`. -/
def complete_tags (s : Inner) (res : AMQPResult) (tags : List Nat)
    (success : Bool) : AMQPResult × Inner :=
  match tags with
  | [] => (res, s)
  | t :: ts =>
    match drop_pending s t success with
    | (Except.ok _, s') => complete_tags s' res ts success
    | (Except.error e, s') => complete_tags s' (Except.error e) ts success

/-- `Inner::complete_pending_before`: collect the live keys at most
`delivery_tag`, then drop each via `drop_pending`, surfacing the last error. -/
def complete_pending_before (s : Inner) (delivery_tag : Nat) (success : Bool) :
    AMQPResult × Inner :=
  complete_tags s (Except.ok ())
    ((keysOf s.pending).filter (fun t => t ≤ delivery_tag)) success

/-- `Inner::on_channel_error`: drain the map, rejecting every entry with the
given error (no returned-message lookup happens on this path). -/
def on_channel_error (s : Inner) (error : Err) : Inner :=
  { s with pending := [],
           events := s.events ++ s.pending.map (fun p => Event.rejectedE p.1 error) }

/-- `Inner::register_pending`: issue a tag, build a fresh broadcaster whose
primary handle is returned to the caller, de-register the previous last-slot
handle from its entry when that entry is still pending, store a second
subscriber handle as the new slot, and insert the broadcaster. Returns the
caller's (primary) handle id. -/
def register_pending (s : Inner) : Nat × Inner :=
  let n := s.delivery_tag.next
  let promise := s.next_handle
  let slot_handle := s.next_handle + 1
  let pending1 :=
    match s.last with
    | some (old_tag, old_promise) =>
        updateA s.pending old_tag (fun b => b.unsubscribe old_promise)
    | none => s.pending
  (promise,
   { s with delivery_tag := n.2,
            last := some (n.1, slot_handle),
            pending := insertA pending1 n.1 ⟨[promise, slot_handle]⟩,
            next_handle := s.next_handle + 2 })

/-- `Acknowledgements::get_last_pending`: take and return the last-slot handle,
or nothing when no slot is held. -/
def get_last_pending (s : Inner) : Option Nat × Inner :=
  match s.last with
  | none => (none, s)
  | some (_, promise) => (some promise, { s with last := none })

/-- `Acknowledgements::ack`. -/
def ack (s : Inner) (delivery_tag : Nat) : AMQPResult × Inner :=
  drop_pending s delivery_tag true

/-- `Acknowledgements::nack`. -/
def nack (s : Inner) (delivery_tag : Nat) : AMQPResult × Inner :=
  drop_pending s delivery_tag false

/-- `Acknowledgements::ack_all_pending`. -/
def ack_all_pending (s : Inner) : Inner := drop_all s true

/-- `Acknowledgements::nack_all_pending`. -/
def nack_all_pending (s : Inner) : Inner := drop_all s false

/-- `Acknowledgements::ack_all_before`. -/
def ack_all_before (s : Inner) (delivery_tag : Nat) : AMQPResult × Inner :=
  complete_pending_before s delivery_tag true

/-- `Acknowledgements::nack_all_before`. -/
def nack_all_before (s : Inner) (delivery_tag : Nat) : AMQPResult × Inner :=
  complete_pending_before s delivery_tag false

/-! The waiter registry of src/wakers.rs. A notification handle is modelled by
the identity of the task it would wake, so `will_wake` is equality. -/

/-- A suspended-task notification handle, identified by the task it wakes. -/
abbrev Waker := Nat

/-- `Waker::will_wake`: would these two handles wake the same task? -/
def will_wake (w other : Waker) : Bool := w = other

/-- State of `Wakers`: the registered handles, in registration order. -/
abbrev Wakers := List Waker

/-- `Wakers::register`: do nothing when an equivalent handle is present,
otherwise append the new handle. -/
def Wakers.register (inner : Wakers) (waker : Waker) : Wakers :=
  if inner.any (fun w => will_wake w waker) then inner else inner ++ [waker]

/-- `Wakers::wake`: emit a wake call for every registered handle, in order, and
drain the registry. Returns the list of wake calls and the new state. -/
def Wakers.wake (inner : Wakers) : List Waker × Wakers :=
  (inner, [])

/-! Sequences of table operations, for stating properties over every
reachable table state. -/

/-- One call of the `Acknowledgements` mutating API. -/
inductive Op where
  | registerOp
  | ackOp (t : Nat)
  | nackOp (t : Nat)
  | ackAllBeforeOp (t : Nat)
  | nackAllBeforeOp (t : Nat)
  | ackAllPendingOp
  | nackAllPendingOp
  | onChannelErrorOp (e : Err)
deriving DecidableEq, Repr

/-- Effect of one API call on the table state (return values discarded). -/
def step (s : Inner) : Op → Inner
  | .registerOp => (register_pending s).2
  | .ackOp t => (ack s t).2
  | .nackOp t => (nack s t).2
  | .ackAllBeforeOp t => (ack_all_before s t).2
  | .nackAllBeforeOp t => (nack_all_before s t).2
  | .ackAllPendingOp => ack_all_pending s
  | .nackAllPendingOp => nack_all_pending s
  | .onChannelErrorOp e => on_channel_error s e

/-- Run a sequence of API calls. -/
def run (s : Inner) (ops : List Op) : Inner := ops.foldl step s

/-- Number of resolve/reject invocations recorded against tag `t`. -/
def tagCount (evs : List Event) (t : Nat) : Nat :=
  (evs.filter (fun e => e.tagOf = t)).length

/-- The confirmation a resolution path builds: Ack on the ack paths, Nack on
the nack paths, carrying the consumed returned message. -/
def confOf (success : Bool) (m : Option Msg) : Confirmation :=
  if success then Confirmation.Ack m else Confirmation.Nack m

/-- The events a drain emits: one resolution per drained tag, each consuming
the next buffered returned message while one is available. -/
def batch_events (success : Bool) (tags : List Nat) (buf : List Msg) :
    List Event :=
  match tags, buf with
  | [], _ => []
  | t :: ts, [] =>
      Event.resolvedE t (confOf success none) :: batch_events success ts []
  | t :: ts, m :: ms =>
      Event.resolvedE t (confOf success (some m)) :: batch_events success ts ms

/-- The individual `drop_pending` results produced, in order, when the
cumulative loop walks `tags`. -/
def results_of (s : Inner) (tags : List Nat) (success : Bool) :
    List AMQPResult :=
  match tags with
  | [] => []
  | t :: ts =>
      (drop_pending s t success).1 ::
        results_of (drop_pending s t success).2 ts success

/-- Fold a run of individual results into the surfaced one: keep the last
error encountered, else the starting accumulator. -/
def last_error (res : AMQPResult) (rs : List AMQPResult) : AMQPResult :=
  rs.foldl
    (fun acc r => match r with | Except.ok _ => acc | Except.error e => Except.error e)
    res

/-- Invariant of every reachable table state: pending keys are distinct and
no larger than the last issued tag, logged events only name issued tags, no
tag is resolved or rejected twice, and a tag still in the map has never been
resolved or rejected. -/
structure Inv (s : Inner) : Prop where
  nodup : (keysOf s.pending).Nodup
  key_le : ∀ t ∈ keysOf s.pending, t ≤ s.delivery_tag.current
  ev_le : ∀ e ∈ s.events, e.tagOf ≤ s.delivery_tag.current
  once : ∀ t, tagCount s.events t ≤ 1
  fresh : ∀ t ∈ keysOf s.pending, tagCount s.events t = 0

instance : DecidableEq AMQPResult := fun a b =>
  match a, b with
  | Except.ok x, Except.ok y => isTrue (by cases x; cases y; rfl)
  | Except.error e1, Except.error e2 =>
      if h : e1 = e2 then isTrue (by rw [h])
      else isFalse (fun hh => h (Except.error.inj hh))
  | Except.ok _, Except.error _ => isFalse (fun hh => Except.noConfusion hh)
  | Except.error _, Except.ok _ => isFalse (fun hh => Except.noConfusion hh)

/-- Concrete table with outstanding tags {1,2,3,5}: five publishes, then an
explicit ack of tag 4. -/
def s135 : Inner :=
  run (Inner.new 0 [])
    [Op.registerOp, Op.registerOp, Op.registerOp, Op.registerOp, Op.registerOp,
     Op.ackOp 4]

/-- Concrete table with a single registered publish. -/
def sC5base : Inner := run (Inner.new 0 []) [Op.registerOp]

/-- Concrete table with two publishes and two buffered returned messages. -/
def sW8 : Inner := run (Inner.new 0 [10, 20]) [Op.registerOp, Op.registerOp]

/-! Basic lemmas about the association-list map. -/

theorem lookupA_eq_find (m : List (Nat × Bcast)) (k : Nat) :
    lookupA m k = (m.find? (fun p => p.1 = k)).map Prod.snd := by
  unfold lookupA
  cases m.find? (fun p => p.1 = k) <;> rfl

theorem lookupA_eq_none_iff (m : List (Nat × Bcast)) (k : Nat) :
    lookupA m k = none ↔ k ∉ keysOf m := by
  rw [lookupA_eq_find, Option.map_eq_none']
  rw [List.find?_eq_none]
  constructor
  · intro h hk
    obtain ⟨p, hp, hfst⟩ := List.mem_map.mp hk
    have hne := h p hp
    simp at hne
    exact hne hfst
  · intro h x hx
    simp
    intro he
    exact h (List.mem_map.mpr ⟨x, hx, he⟩)

theorem mem_keysOf_of_lookupA (m : List (Nat × Bcast)) (k : Nat) (b : Bcast)
    (h : lookupA m k = some b) : k ∈ keysOf m := by
  by_contra hk
  rw [← lookupA_eq_none_iff] at hk
  rw [h] at hk
  exact Option.noConfusion hk

theorem keysOf_eraseA (m : List (Nat × Bcast)) (k : Nat) :
    keysOf (eraseA m k) = (keysOf m).filter (fun t => t ≠ k) := by
  induction m with
  | nil => rfl
  | cons p ps ih =>
      by_cases h : p.1 = k
      · simp [keysOf, eraseA, List.filter_cons, h] at *
        exact ih
      · simp [keysOf, eraseA, List.filter_cons, h] at *
        exact ih

theorem keysOf_insertA (m : List (Nat × Bcast)) (k : Nat) (v : Bcast) :
    keysOf (insertA m k v) = k :: (keysOf m).filter (fun t => t ≠ k) := by
  have h := keysOf_eraseA m k
  simp only [insertA, keysOf, List.map_cons]
  simp only [keysOf] at h
  rw [h]

theorem keysOf_updateA (m : List (Nat × Bcast)) (k : Nat) (f : Bcast → Bcast) :
    keysOf (updateA m k f) = keysOf m := by
  induction m with
  | nil => rfl
  | cons p ps ih =>
      by_cases h : p.1 = k
      · simp [keysOf, updateA, h] at *
        exact ih
      · simp [keysOf, updateA, h] at *
        exact ih

/-! Counting lemmas for the event log. -/

theorem tagCount_append (l l' : List Event) (t : Nat) :
    tagCount (l ++ l') t = tagCount l t + tagCount l' t := by
  simp [tagCount, List.filter_append]

theorem tagCount_singleton (e : Event) (t : Nat) :
    tagCount [e] t = if e.tagOf = t then 1 else 0 := by
  by_cases h : e.tagOf = t <;> simp [tagCount, h]

theorem tagCount_eq_zero_iff (l : List Event) (t : Nat) :
    tagCount l t = 0 ↔ ∀ e ∈ l, e.tagOf ≠ t := by
  simp [tagCount, List.length_eq_zero, List.filter_eq_nil_iff]

/-! Closed forms for the resolution paths. -/

theorem complete_pending_eq (s : Inner) (b : Bool) (tag : Nat) :
    complete_pending s b tag =
      { s with returned_messages := s.returned_messages.tail,
               events := s.events ++
                 [Event.resolvedE tag (confOf b s.returned_messages.head?)] } := by
  rcases s with ⟨cid, dt, la, pe, rm, nh, evs⟩
  cases rm <;> simp [complete_pending, get_waiting_message, confOf]

theorem drop_pending_eq_present (s : Inner) (t : Nat) (b : Bool) (bc : Bcast)
    (h : lookupA s.pending t = some bc) :
    drop_pending s t b =
      (Except.ok (),
       { s with pending := eraseA s.pending t,
                returned_messages := s.returned_messages.tail,
                events := s.events ++
                  [Event.resolvedE t (confOf b s.returned_messages.head?)] }) := by
  unfold drop_pending
  rw [h]
  rw [complete_pending_eq]

theorem drop_pending_eq_absent (s : Inner) (t : Nat) (b : Bool)
    (h : lookupA s.pending t = none) :
    drop_pending s t b =
      (Except.error
        ⟨b, t, s.channel_id, s.delivery_tag.current, keysOf s.pending⟩, s) := by
  unfold drop_pending
  rw [h]

theorem keysOf_drop_pending (s : Inner) (t : Nat) (b : Bool) :
    keysOf (drop_pending s t b).2.pending =
      (keysOf s.pending).filter (fun u => u ≠ t) := by
  cases h : lookupA s.pending t with
  | some bc =>
      rw [drop_pending_eq_present s t b bc h]
      exact keysOf_eraseA s.pending t
  | none =>
      rw [drop_pending_eq_absent s t b h]
      rw [lookupA_eq_none_iff] at h
      symm
      rw [List.filter_eq_self]
      intro u hu
      simp
      intro he
      exact h (he ▸ hu)

theorem drop_pending_frame (s : Inner) (t : Nat) (b : Bool) :
    (drop_pending s t b).2.channel_id = s.channel_id ∧
    (drop_pending s t b).2.delivery_tag = s.delivery_tag ∧
    (drop_pending s t b).2.last = s.last ∧
    (drop_pending s t b).2.next_handle = s.next_handle := by
  cases h : lookupA s.pending t with
  | some bc => rw [drop_pending_eq_present s t b bc h]; exact ⟨rfl, rfl, rfl, rfl⟩
  | none => rw [drop_pending_eq_absent s t b h]; exact ⟨rfl, rfl, rfl, rfl⟩

theorem mem_events_drop_pending (s : Inner) (t : Nat) (b : Bool) (e : Event)
    (he : e ∈ s.events) : e ∈ (drop_pending s t b).2.events := by
  cases h : lookupA s.pending t with
  | some bc =>
      rw [drop_pending_eq_present s t b bc h]
      exact List.mem_append_left _ he
  | none => rw [drop_pending_eq_absent s t b h]; exact he

theorem lookupA_isSome_of_mem (m : List (Nat × Bcast)) (k : Nat)
    (h : k ∈ keysOf m) : ∃ bc, lookupA m k = some bc := by
  cases hl : lookupA m k with
  | none => rw [lookupA_eq_none_iff] at hl; exact absurd h hl
  | some bc => exact ⟨bc, rfl⟩

/-! Lemmas about the cumulative-resolution loop. -/

theorem complete_tags_cons (s : Inner) (acc : AMQPResult) (t : Nat)
    (ts : List Nat) (b : Bool) :
    complete_tags s acc (t :: ts) b =
      complete_tags (drop_pending s t b).2
        (match (drop_pending s t b).1 with
         | Except.ok _ => acc
         | Except.error e => Except.error e) ts b := by
  rcases h : drop_pending s t b with ⟨r, s'⟩
  cases r <;> simp [complete_tags, h]

theorem complete_tags_res (ts : List Nat) :
    ∀ (s : Inner) (acc : AMQPResult) (b : Bool),
      (complete_tags s acc ts b).1 = last_error acc (results_of s ts b) := by
  induction ts with
  | nil => intro s acc b; rfl
  | cons t ts ih =>
      intro s acc b
      rw [complete_tags_cons, ih]
      cases h : (drop_pending s t b).1 <;>
        simp [results_of, last_error, h, List.foldl_cons]

theorem complete_tags_mem_keys (ts : List Nat) :
    ∀ (s : Inner) (acc : AMQPResult) (b : Bool) (u : Nat),
      u ∈ keysOf (complete_tags s acc ts b).2.pending ↔
        (u ∈ keysOf s.pending ∧ u ∉ ts) := by
  induction ts with
  | nil => intro s acc b u; simp [complete_tags]
  | cons t ts ih =>
      intro s acc b u
      rw [complete_tags_cons, ih, keysOf_drop_pending]
      simp [List.mem_filter]
      tauto

theorem complete_tags_frame (ts : List Nat) :
    ∀ (s : Inner) (acc : AMQPResult) (b : Bool),
      (complete_tags s acc ts b).2.channel_id = s.channel_id ∧
      (complete_tags s acc ts b).2.delivery_tag = s.delivery_tag ∧
      (complete_tags s acc ts b).2.last = s.last ∧
      (complete_tags s acc ts b).2.next_handle = s.next_handle := by
  induction ts with
  | nil => intro s acc b; exact ⟨rfl, rfl, rfl, rfl⟩
  | cons t ts ih =>
      intro s acc b
      rw [complete_tags_cons]
      obtain ⟨h1, h2, h3, h4⟩ :=
        ih (drop_pending s t b).2
          (match (drop_pending s t b).1 with
           | Except.ok _ => acc
           | Except.error e => Except.error e) b
      obtain ⟨g1, g2, g3, g4⟩ := drop_pending_frame s t b
      exact ⟨h1.trans g1, h2.trans g2, h3.trans g3, h4.trans g4⟩

theorem mem_events_complete_tags (ts : List Nat) :
    ∀ (s : Inner) (acc : AMQPResult) (b : Bool) (e : Event),
      e ∈ s.events → e ∈ (complete_tags s acc ts b).2.events := by
  induction ts with
  | nil => intro s acc b e he; exact he
  | cons t ts ih =>
      intro s acc b e he
      rw [complete_tags_cons]
      exact ih _ _ _ _ (mem_events_drop_pending s t b e he)

theorem complete_tags_resolves (ts : List Nat) :
    ∀ (s : Inner) (acc : AMQPResult) (b : Bool), ts.Nodup →
      ∀ u ∈ ts, u ∈ keysOf s.pending →
        ∃ m, Event.resolvedE u (confOf b m) ∈ (complete_tags s acc ts b).2.events := by
  induction ts with
  | nil => intro s acc b _ u hu; exact absurd hu (List.not_mem_nil u)
  | cons t ts ih =>
      intro s acc b hnd u hu hpend
      rw [complete_tags_cons]
      rcases List.mem_cons.mp hu with heq | hmem
      · subst heq
        obtain ⟨bc, hbc⟩ := lookupA_isSome_of_mem s.pending u hpend
        refine ⟨s.returned_messages.head?, ?_⟩
        apply mem_events_complete_tags
        rw [drop_pending_eq_present s u b bc hbc]
        simp
      · have hut : u ≠ t := fun h => (List.nodup_cons.mp hnd).1 (h ▸ hmem)
        have hpend' : u ∈ keysOf (drop_pending s t b).2.pending := by
          rw [keysOf_drop_pending]
          simp [List.mem_filter]
          exact ⟨hpend, hut⟩
        exact ih _ _ b (List.nodup_cons.mp hnd).2 u hmem hpend'

theorem complete_tags_acc (ts : List Nat) :
    ∀ (s : Inner) (acc : AMQPResult) (b : Bool), ts.Nodup →
      (∀ u ∈ ts, u ∈ keysOf s.pending) →
      (complete_tags s acc ts b).1 = acc := by
  induction ts with
  | nil => intro s acc b _ _; rfl
  | cons t ts ih =>
      intro s acc b hnd hsub
      rw [complete_tags_cons]
      obtain ⟨bc, hbc⟩ :=
        lookupA_isSome_of_mem s.pending t (hsub t (List.mem_cons_self t ts))
      have h1 : (drop_pending s t b).1 = Except.ok () := by
        rw [drop_pending_eq_present s t b bc hbc]
      rw [h1]
      apply ih _ _ _ (List.nodup_cons.mp hnd).2
      intro u hu
      rw [keysOf_drop_pending]
      have hut : u ≠ t := fun h => (List.nodup_cons.mp hnd).1 (h ▸ hu)
      simp [List.mem_filter]
      exact ⟨hsub u (List.mem_cons_of_mem t hu), hut⟩

theorem complete_tags_returned (ts : List Nat) :
    ∀ (s : Inner) (acc : AMQPResult) (b : Bool), ts.Nodup →
      (∀ u ∈ ts, u ∈ keysOf s.pending) →
      (complete_tags s acc ts b).2.returned_messages =
        s.returned_messages.drop ts.length := by
  induction ts with
  | nil => intro s acc b _ _; rfl
  | cons t ts ih =>
      intro s acc b hnd hsub
      rw [complete_tags_cons]
      obtain ⟨bc, hbc⟩ :=
        lookupA_isSome_of_mem s.pending t (hsub t (List.mem_cons_self t ts))
      have hrec := ih (drop_pending s t b).2
        (match (drop_pending s t b).1 with
         | Except.ok _ => acc
         | Except.error e => Except.error e) b (List.nodup_cons.mp hnd).2 ?_
      · rw [hrec]
        rw [drop_pending_eq_present s t b bc hbc]
        simp [List.length_cons]
      · intro u hu
        rw [keysOf_drop_pending]
        have hut : u ≠ t := fun h => (List.nodup_cons.mp hnd).1 (h ▸ hu)
        simp [List.mem_filter]
        exact ⟨hsub u (List.mem_cons_of_mem t hu), hut⟩

/-! Closed form of the full drain. -/

theorem fold_complete_eq (l : List (Nat × Bcast)) :
    ∀ (t : Inner) (b : Bool),
      l.foldl (fun t p => complete_pending t b p.1) t =
        { t with returned_messages := t.returned_messages.drop l.length,
                 events := t.events ++ batch_events b (keysOf l) t.returned_messages } := by
  induction l with
  | nil => intro t b; cases t; simp [batch_events, keysOf]
  | cons p ps ih =>
      intro t b
      rw [List.foldl_cons, ih, complete_pending_eq]
      rcases t with ⟨cid, dt, la, pe, rm, nh, evs⟩
      cases rm <;> simp [batch_events, keysOf, List.append_assoc]

theorem drop_all_eq (s : Inner) (b : Bool) :
    drop_all s b =
      { s with pending := [],
               returned_messages := s.returned_messages.drop s.pending.length,
               events := s.events ++
                 batch_events b (keysOf s.pending) s.returned_messages } := by
  unfold drop_all
  rw [fold_complete_eq]

theorem tagCount_cons (e : Event) (l : List Event) (u : Nat) :
    tagCount (e :: l) u = (if e.tagOf = u then 1 else 0) + tagCount l u := by
  rw [show e :: l = [e] ++ l from rfl, tagCount_append, tagCount_singleton]

theorem tagCount_batch_events (b : Bool) (ts : List Nat) :
    ∀ (buf : List Msg) (u : Nat),
      tagCount (batch_events b ts buf) u = ts.count u := by
  induction ts with
  | nil => intro buf u; simp [batch_events, tagCount]
  | cons t ts ih =>
      intro buf u
      cases buf with
      | nil =>
          rw [show batch_events b (t :: ts) [] =
                Event.resolvedE t (confOf b none) :: batch_events b ts [] from rfl]
          rw [tagCount_cons, ih, List.count_cons]
          simp only [Event.tagOf]
          by_cases h : t = u <;> simp [h] <;> omega
      | cons m ms =>
          rw [show batch_events b (t :: ts) (m :: ms) =
                Event.resolvedE t (confOf b (some m)) :: batch_events b ts ms from rfl]
          rw [tagCount_cons, ih, List.count_cons]
          simp only [Event.tagOf]
          by_cases h : t = u <;> simp [h] <;> omega

/-! Lemmas about channel-error rejection. -/

theorem tagCount_reject_map (e : Err) (l : List (Nat × Bcast)) (u : Nat) :
    tagCount (l.map (fun p => Event.rejectedE p.1 e)) u = (keysOf l).count u := by
  induction l with
  | nil => simp [tagCount, keysOf]
  | cons p ps ih =>
      simp only [List.map_cons]
      rw [tagCount_cons, ih]
      simp only [Event.tagOf, keysOf, List.map_cons, List.count_cons]
      by_cases h : p.1 = u <;> simp [h] <;> omega

/-! Closed-form facts about registration. -/

theorem register_pending_fields (s : Inner) :
    (register_pending s).2.channel_id = s.channel_id ∧
    (register_pending s).2.delivery_tag = ⟨s.delivery_tag.current + 1⟩ ∧
    (register_pending s).2.last =
      some (s.delivery_tag.current + 1, s.next_handle + 1) ∧
    (register_pending s).2.returned_messages = s.returned_messages ∧
    (register_pending s).2.next_handle = s.next_handle + 2 ∧
    (register_pending s).2.events = s.events := by
  cases h : s.last with
  | none => simp [register_pending, IdSequence.next, h]
  | some p => simp [register_pending, IdSequence.next, h]

theorem register_pending_keys (s : Inner) :
    keysOf (register_pending s).2.pending =
      (s.delivery_tag.current + 1) ::
        (keysOf s.pending).filter (fun t => t ≠ s.delivery_tag.current + 1) := by
  cases h : s.last with
  | none => simp [register_pending, IdSequence.next, h, keysOf_insertA]
  | some p =>
      simp [register_pending, IdSequence.next, h, keysOf_insertA, keysOf_updateA]

theorem tagOf_mem_batch_events (b : Bool) (ts : List Nat) :
    ∀ (buf : List Msg) (e : Event), e ∈ batch_events b ts buf → e.tagOf ∈ ts := by
  induction ts with
  | nil => intro buf e he; simp [batch_events] at he
  | cons t ts ih =>
      intro buf e he
      cases buf with
      | nil =>
          rw [show batch_events b (t :: ts) [] =
                Event.resolvedE t (confOf b none) :: batch_events b ts [] from rfl] at he
          rcases List.mem_cons.mp he with h | h
          · rw [h]; simp [Event.tagOf]
          · exact List.mem_cons_of_mem _ (ih [] e h)
      | cons m ms =>
          rw [show batch_events b (t :: ts) (m :: ms) =
                Event.resolvedE t (confOf b (some m)) :: batch_events b ts ms from rfl] at he
          rcases List.mem_cons.mp he with h | h
          · rw [h]; simp [Event.tagOf]
          · exact List.mem_cons_of_mem _ (ih ms e h)

/-! Preservation of the reachable-state invariant. -/

theorem inv_drop_pending (s : Inner) (t : Nat) (b : Bool) (hI : Inv s) :
    Inv (drop_pending s t b).2 := by
  cases h : lookupA s.pending t with
  | none => rw [drop_pending_eq_absent s t b h]; exact hI
  | some bc =>
      have htmem : t ∈ keysOf s.pending := mem_keysOf_of_lookupA _ _ _ h
      rw [drop_pending_eq_present s t b bc h]
      constructor
      · rw [keysOf_eraseA]; exact hI.nodup.filter _
      · intro u hu
        rw [keysOf_eraseA] at hu
        exact hI.key_le u (List.mem_filter.mp hu).1
      · intro e he
        rcases List.mem_append.mp he with h1 | h2
        · exact hI.ev_le e h1
        · have he2 : e = Event.resolvedE t (confOf b s.returned_messages.head?) := by
            simpa using h2
          rw [he2]
          exact hI.key_le t htmem
      · intro u
        rw [tagCount_append, tagCount_singleton]
        simp only [Event.tagOf]
        by_cases hu : t = u
        · subst hu; simp [hI.fresh t htmem]
        · simp [hu, hI.once u]
      · intro u hu
        rw [keysOf_eraseA] at hu
        obtain ⟨hu1, hu2⟩ := List.mem_filter.mp hu
        have hne : u ≠ t := by simpa using hu2
        rw [tagCount_append, tagCount_singleton]
        simp only [Event.tagOf]
        rw [if_neg (fun hh => hne hh.symm)]
        simp [hI.fresh u hu1]

theorem inv_complete_tags (ts : List Nat) :
    ∀ (s : Inner) (acc : AMQPResult) (b : Bool), Inv s →
      Inv (complete_tags s acc ts b).2 := by
  induction ts with
  | nil => intro s acc b hI; exact hI
  | cons t ts ih =>
      intro s acc b hI
      rw [complete_tags_cons]
      exact ih _ _ _ (inv_drop_pending s t b hI)

theorem inv_drop_all (s : Inner) (b : Bool) (hI : Inv s) : Inv (drop_all s b) := by
  rw [drop_all_eq]
  constructor
  · simp [keysOf]
  · intro u hu; simp [keysOf] at hu
  · intro e he
    rcases List.mem_append.mp he with h1 | h2
    · exact hI.ev_le e h1
    · exact hI.key_le e.tagOf (tagOf_mem_batch_events b (keysOf s.pending) _ e h2)
  · intro u
    rw [tagCount_append, tagCount_batch_events]
    by_cases hu : u ∈ keysOf s.pending
    · rw [hI.fresh u hu]
      simpa using (List.nodup_iff_count_le_one.mp hI.nodup) u
    · rw [List.count_eq_zero_of_not_mem hu]
      simpa using hI.once u
  · intro u hu
    simp [keysOf] at hu

theorem inv_on_channel_error (s : Inner) (e : Err) (hI : Inv s) :
    Inv (on_channel_error s e) := by
  constructor
  · simp [on_channel_error, keysOf]
  · intro u hu; simp [on_channel_error, keysOf] at hu
  · intro ev he
    simp only [on_channel_error] at he
    rcases List.mem_append.mp he with h1 | h2
    · exact hI.ev_le ev h1
    · obtain ⟨p, hp, hpe⟩ := List.mem_map.mp h2
      rw [← hpe]
      exact hI.key_le p.1 (List.mem_map.mpr ⟨p, hp, rfl⟩)
  · intro u
    simp only [on_channel_error]
    rw [tagCount_append, tagCount_reject_map]
    by_cases hu : u ∈ keysOf s.pending
    · rw [hI.fresh u hu]
      simpa using (List.nodup_iff_count_le_one.mp hI.nodup) u
    · rw [List.count_eq_zero_of_not_mem hu]
      simpa using hI.once u
  · intro u hu
    simp [on_channel_error, keysOf] at hu

theorem inv_register (s : Inner) (hI : Inv s) : Inv (register_pending s).2 := by
  obtain ⟨hc, hdt, hl, hr, hn, hev⟩ := register_pending_fields s
  constructor
  · rw [register_pending_keys]
    refine List.nodup_cons.mpr ⟨?_, hI.nodup.filter _⟩
    intro hmem
    have := (List.mem_filter.mp hmem).2
    simp at this
  · intro u hu
    rw [register_pending_keys] at hu
    rw [hdt]
    rcases List.mem_cons.mp hu with h | h
    · rw [h]
    · have := hI.key_le u (List.mem_filter.mp h).1
      exact Nat.le_succ_of_le this
  · intro e he
    rw [hev] at he
    rw [hdt]
    exact Nat.le_succ_of_le (hI.ev_le e he)
  · intro u
    rw [hev]
    exact hI.once u
  · intro u hu
    rw [hev]
    rw [register_pending_keys] at hu
    rcases List.mem_cons.mp hu with h | h
    · rw [tagCount_eq_zero_iff]
      intro e he heq
      have := hI.ev_le e he
      rw [heq, h] at this
      omega
    · exact hI.fresh u (List.mem_filter.mp h).1

theorem inv_new (cid : Nat) (msgs : List Msg) : Inv (Inner.new cid msgs) := by
  constructor
  · simp [Inner.new, keysOf]
  · intro u hu; simp [Inner.new, keysOf] at hu
  · intro e he; simp [Inner.new] at he
  · intro u; simp [Inner.new, tagCount]
  · intro u hu; simp [Inner.new, keysOf] at hu

theorem inv_step (s : Inner) (op : Op) (hI : Inv s) : Inv (step s op) := by
  cases op with
  | registerOp => exact inv_register s hI
  | ackOp t => exact inv_drop_pending s t true hI
  | nackOp t => exact inv_drop_pending s t false hI
  | ackAllBeforeOp t => exact inv_complete_tags _ s _ true hI
  | nackAllBeforeOp t => exact inv_complete_tags _ s _ false hI
  | ackAllPendingOp => exact inv_drop_all s true hI
  | nackAllPendingOp => exact inv_drop_all s false hI
  | onChannelErrorOp e => exact inv_on_channel_error s e hI

theorem inv_run (s : Inner) (ops : List Op) (hI : Inv s) : Inv (run s ops) := by
  induction ops generalizing s with
  | nil => exact hI
  | cons op ops ih => exact ih (step s op) (inv_step s op hI)

/-! Pointwise lookup lemmas, used for slot supersession. -/

theorem lookupA_cons (p : Nat × Bcast) (ps : List (Nat × Bcast)) (k : Nat) :
    lookupA (p :: ps) k = if p.1 = k then some p.2 else lookupA ps k := by
  by_cases h : p.1 = k <;> simp [lookupA, List.find?_cons, h]

theorem lookupA_eraseA_ne (m : List (Nat × Bcast)) (k k' : Nat) (h : k' ≠ k) :
    lookupA (eraseA m k) k' = lookupA m k' := by
  induction m with
  | nil => rfl
  | cons p ps ih =>
      by_cases hp : p.1 = k
      · rw [show eraseA (p :: ps) k = eraseA ps k by simp [eraseA, List.filter_cons, hp]]
        have hne : ¬ p.1 = k' := fun hh => h (hh ▸ hp)
        rw [ih, lookupA_cons, if_neg hne]
      · rw [show eraseA (p :: ps) k = p :: eraseA ps k by
              simp [eraseA, List.filter_cons, hp]]
        rw [lookupA_cons, lookupA_cons, ih]

theorem lookupA_insertA_ne (m : List (Nat × Bcast)) (k : Nat) (v : Bcast)
    (k' : Nat) (h : k' ≠ k) :
    lookupA (insertA m k v) k' = lookupA m k' := by
  rw [insertA, lookupA_cons]
  rw [if_neg (fun hh => h hh.symm)]
  exact lookupA_eraseA_ne m k k' h

theorem lookupA_updateA_self (m : List (Nat × Bcast)) (k : Nat)
    (f : Bcast → Bcast) :
    lookupA (updateA m k f) k = (lookupA m k).map f := by
  induction m with
  | nil => rfl
  | cons p ps ih =>
      by_cases hp : p.1 = k
      · rw [show updateA (p :: ps) k f = (p.1, f p.2) :: updateA ps k f by
              simp [updateA, hp]]
        rw [lookupA_cons, lookupA_cons]
        simp [hp]
      · rw [show updateA (p :: ps) k f = p :: updateA ps k f by simp [updateA, hp]]
        rw [lookupA_cons, lookupA_cons]
        rw [if_neg hp, if_neg hp]
        exact ih

theorem register_pending_old_entry (s : Inner) (oldT oldH : Nat) (b : Bcast)
    (hlast : s.last = some (oldT, oldH))
    (hne : oldT ≠ s.delivery_tag.current + 1)
    (hb : lookupA s.pending oldT = some b) :
    lookupA (register_pending s).2.pending oldT = some (b.unsubscribe oldH) := by
  rw [show (register_pending s).2.pending =
        insertA (updateA s.pending oldT (fun x => x.unsubscribe oldH))
          (s.delivery_tag.current + 1)
          ⟨[s.next_handle, s.next_handle + 1]⟩ by
        simp [register_pending, IdSequence.next, hlast]]
  rw [lookupA_insertA_ne _ _ _ _ hne]
  rw [lookupA_updateA_self, hb]
  rfl

/-! Last-error bookkeeping. -/

theorem last_error_all_ok (rs : List AMQPResult) :
    ∀ (acc : AMQPResult), (∀ r ∈ rs, r = Except.ok ()) → last_error acc rs = acc := by
  induction rs with
  | nil => intro acc _; rfl
  | cons r rs ih =>
      intro acc h
      have hr := h r (List.mem_cons_self r rs)
      subst hr
      have hstep : last_error acc (Except.ok () :: rs) = last_error acc rs := rfl
      rw [hstep]
      exact ih acc (fun x hx => h x (List.mem_cons_of_mem _ hx))

/-! Lemmas about the waiter registry. -/

theorem register_any_iff (r : Wakers) (w : Waker) :
    r.any (fun x => will_wake x w) = true ↔ w ∈ r := by
  simp [List.any_eq_true, will_wake]

theorem register_mem (r : Wakers) (w u : Waker) :
    u ∈ r.register w ↔ (u ∈ r ∨ u = w) := by
  unfold Wakers.register
  by_cases h : r.any (fun x => will_wake x w)
  · have hw : w ∈ r := (register_any_iff r w).mp h
    rw [if_pos h]
    constructor
    · exact Or.inl
    · rintro (hu | rfl)
      · exact hu
      · exact hw
  · rw [if_neg h]
    simp

theorem register_noop_of_mem (r : Wakers) (w : Waker) (h : w ∈ r) :
    r.register w = r := by
  unfold Wakers.register
  rw [if_pos ((register_any_iff r w).mpr h)]

theorem register_nodup (r : Wakers) (w : Waker) (h : r.Nodup) :
    (r.register w).Nodup := by
  unfold Wakers.register
  by_cases hw : r.any (fun x => will_wake x w)
  · rw [if_pos hw]; exact h
  · have hnm : w ∉ r := fun hm => hw ((register_any_iff r w).mpr hm)
    rw [if_neg hw]
    simp [List.nodup_append, h, hnm]

theorem foldl_register_mem (tasks : List Waker) :
    ∀ (r : Wakers) (u : Waker),
      u ∈ tasks.foldl Wakers.register r ↔ (u ∈ r ∨ u ∈ tasks) := by
  induction tasks with
  | nil => intro r u; simp
  | cons t ts ih =>
      intro r u
      rw [List.foldl_cons, ih, register_mem]
      simp
      tauto

theorem foldl_register_nodup (tasks : List Waker) :
    ∀ (r : Wakers), r.Nodup → (tasks.foldl Wakers.register r).Nodup := by
  induction tasks with
  | nil => intro r h; exact h
  | cons t ts ih => intro r h; exact ih _ (register_nodup r t h)

/-! Claim theorems. -/

/-- C1: across any sequence of table operations (register_pending, ack, nack,
ack_all_before, nack_all_before, ack_all_pending, nack_all_pending,
on_channel_error) from a fresh table, every tag's broadcaster has resolve or
reject invoked at most once, and a tag still in the pending map has received
no invocation at all: every resolution path removes the entry from the map
before resolving it, so no entry is ever resolved twice. -/
theorem c1_exactly_once_resolution (cid : Nat) (msgs : List Msg)
    (ops : List Op) (t : Nat) :
    tagCount (run (Inner.new cid msgs) ops).events t ≤ 1 ∧
    (t ∈ keysOf (run (Inner.new cid msgs) ops).pending →
      tagCount (run (Inner.new cid msgs) ops).events t = 0) := by
  have hI := inv_run (Inner.new cid msgs) ops (inv_new cid msgs)
  exact ⟨hI.once t, fun h => hI.fresh t h⟩

/-- Witness for C1 at a concrete run: after two publishes and an ack of tag 1,
tag 2 is still pending with zero resolution events, and tag 1 has at most one. -/
theorem c1_exactly_once_resolution_witness :
    2 ∈ keysOf (run (Inner.new 0 []) [Op.registerOp, Op.registerOp, Op.ackOp 1]).pending ∧
    tagCount (run (Inner.new 0 []) [Op.registerOp, Op.registerOp, Op.ackOp 1]).events 2 = 0 ∧
    tagCount (run (Inner.new 0 []) [Op.registerOp, Op.registerOp, Op.ackOp 1]).events 1 ≤ 1 :=
  ⟨by decide,
   (c1_exactly_once_resolution 0 [] [Op.registerOp, Op.registerOp, Op.ackOp 1] 2).2 (by decide),
   (c1_exactly_once_resolution 0 [] [Op.registerOp, Op.registerOp, Op.ackOp 1] 1).1⟩

/-- C3: ack(t) and nack(t) on a tag with no pending entry return the
precondition-failed error whose payload carries the ack/nack kind, the unknown
tag, the channel id, the sequence generator's current value and the
still-outstanding tag set, and leave the whole table state unchanged. -/
theorem c3_unknown_tag_error (s : Inner) (t : Nat)
    (h : lookupA s.pending t = none) :
    ack s t =
      (Except.error ⟨true, t, s.channel_id, s.delivery_tag.current, keysOf s.pending⟩, s) ∧
    nack s t =
      (Except.error ⟨false, t, s.channel_id, s.delivery_tag.current, keysOf s.pending⟩, s) :=
  ⟨drop_pending_eq_absent s t true h, drop_pending_eq_absent s t false h⟩

/-- Witness for C3: ack(99) on a table holding only tag 1 errors out with the
full diagnostic payload and leaves the table unchanged. -/
theorem c3_unknown_tag_error_witness :
    ack (run (Inner.new 7 []) [Op.registerOp]) 99 =
      (Except.error ⟨true, 99, 7, 1, [1]⟩, run (Inner.new 7 []) [Op.registerOp]) := by
  have h := c3_unknown_tag_error (run (Inner.new 7 []) [Op.registerOp]) 99 (by decide)
  rw [h.1]
  rfl

/-- C10: a cumulative ack/nack whose bound covers no pending tag (in
particular on an empty table) succeeds and leaves the table unchanged, unlike
a single ack on an absent tag. -/
theorem c10_vacuous_cumulative (s : Inner) (t : Nat)
    (h : ∀ u ∈ keysOf s.pending, t < u) :
    ack_all_before s t = (Except.ok (), s) ∧
    nack_all_before s t = (Except.ok (), s) := by
  have hnil : (keysOf s.pending).filter (fun u => u ≤ t) = [] := by
    rw [List.filter_eq_nil_iff]
    intro u hu
    simp
    exact h u hu
  constructor
  · show complete_pending_before s t true = _
    unfold complete_pending_before
    rw [hnil]
    rfl
  · show complete_pending_before s t false = _
    unfold complete_pending_before
    rw [hnil]
    rfl

/-- Witness for C10: on a table with pending tags 1 and 2, ack_all_before 0
and nack_all_before 0 are vacuously successful no-ops. -/
theorem c10_vacuous_cumulative_witness :
    ack_all_before (run (Inner.new 0 []) [Op.registerOp, Op.registerOp]) 0 =
      (Except.ok (), run (Inner.new 0 []) [Op.registerOp, Op.registerOp]) ∧
    nack_all_before (run (Inner.new 0 []) [Op.registerOp, Op.registerOp]) 0 =
      (Except.ok (), run (Inner.new 0 []) [Op.registerOp, Op.registerOp]) :=
  c10_vacuous_cumulative (run (Inner.new 0 []) [Op.registerOp, Op.registerOp]) 0 (by decide)

/-- C4: on_channel_error(e) rejects every one of the N pending entries with e
(appending exactly N rejection events, all rejections, consulting no returned
message), empties the pending map, and a subsequent ack or nack of any tag
returns the unknown-tag error rather than crashing. -/
theorem c4_channel_error_drains (s : Inner) (e : Err) :
    (on_channel_error s e).pending = [] ∧
    (∀ p ∈ s.pending, Event.rejectedE p.1 e ∈ (on_channel_error s e).events) ∧
    (on_channel_error s e).events.length = s.events.length + s.pending.length ∧
    (∀ ev ∈ (on_channel_error s e).events, ev ∉ s.events →
      ∃ t ∈ keysOf s.pending, ev = Event.rejectedE t e) ∧
    (on_channel_error s e).returned_messages = s.returned_messages ∧
    (∀ t b, (drop_pending (on_channel_error s e) t b).1 =
      Except.error ⟨b, t, s.channel_id, s.delivery_tag.current, []⟩) := by
  refine ⟨rfl, ?_, ?_, ?_, rfl, ?_⟩
  · intro p hp
    simp only [on_channel_error]
    exact List.mem_append_right _ (List.mem_map.mpr ⟨p, hp, rfl⟩)
  · simp [on_channel_error]
  · intro ev hev hnot
    simp only [on_channel_error] at hev
    rcases List.mem_append.mp hev with h1 | h2
    · exact absurd h1 hnot
    · obtain ⟨p, hp, hpe⟩ := List.mem_map.mp h2
      exact ⟨p.1, List.mem_map.mpr ⟨p, hp, rfl⟩, hpe.symm⟩
  · intro t b
    have hl : lookupA (on_channel_error s e).pending t = none := by
      rw [lookupA_eq_none_iff]
      simp [on_channel_error, keysOf]
    rw [drop_pending_eq_absent _ _ _ hl]
    rfl

/-- Witness for C4: two publishes, channel error 42: both tags observe the
rejection, and a later ack of tag 1 errors instead of crashing. -/
theorem c4_channel_error_drains_witness :
    (on_channel_error (run (Inner.new 0 []) [Op.registerOp, Op.registerOp]) 42).pending = [] ∧
    Event.rejectedE 1 42 ∈
      (on_channel_error (run (Inner.new 0 []) [Op.registerOp, Op.registerOp]) 42).events ∧
    Event.rejectedE 2 42 ∈
      (on_channel_error (run (Inner.new 0 []) [Op.registerOp, Op.registerOp]) 42).events ∧
    (drop_pending (on_channel_error (run (Inner.new 0 []) [Op.registerOp, Op.registerOp]) 42)
        1 true).1 = Except.error ⟨true, 1, 0, 2, []⟩ := by
  have h := c4_channel_error_drains (run (Inner.new 0 []) [Op.registerOp, Op.registerOp]) 42
  refine ⟨h.1, ?_, ?_, ?_⟩
  · exact h.2.1 (1, ⟨[0]⟩) (by decide)
  · exact h.2.1 (2, ⟨[2, 3]⟩) (by decide)
  · exact h.2.2.2.2.2 1 true

/-- C6: ack_all_before/nack_all_before are exactly the best-effort loop over
the covered key set: no individual error aborts the iteration (the loop
removes every processed tag regardless of errors elsewhere in the set), and
the surfaced result is the last error among the individual drop results, Ok
when every individual resolution succeeded. -/
theorem c6_best_effort_last_error (s : Inner) (t : Nat) (b : Bool)
    (ts : List Nat) :
    ack_all_before s t =
      complete_tags s (Except.ok ())
        ((keysOf s.pending).filter (fun u => u ≤ t)) true ∧
    nack_all_before s t =
      complete_tags s (Except.ok ())
        ((keysOf s.pending).filter (fun u => u ≤ t)) false ∧
    (complete_tags s (Except.ok ()) ts b).1 =
      last_error (Except.ok ()) (results_of s ts b) ∧
    (∀ u, u ∈ keysOf (complete_tags s (Except.ok ()) ts b).2.pending ↔
      (u ∈ keysOf s.pending ∧ u ∉ ts)) ∧
    ((∀ r ∈ results_of s ts b, r = Except.ok ()) →
      (complete_tags s (Except.ok ()) ts b).1 = Except.ok ()) := by
  refine ⟨rfl, rfl, complete_tags_res ts s _ b, ?_, ?_⟩
  · intro u
    exact complete_tags_mem_keys ts s _ b u
  · intro hall
    rw [complete_tags_res ts s _ b]
    exact last_error_all_ok _ _ hall

/-- Witness for C6: with pending tags 1 and 2, the loop over [1, 2] succeeds
wholly, and all individual results were Ok. -/
theorem c6_best_effort_last_error_witness :
    (complete_tags (run (Inner.new 0 []) [Op.registerOp, Op.registerOp])
        (Except.ok ()) [1, 2] true).1 = Except.ok () :=
  (c6_best_effort_last_error (run (Inner.new 0 []) [Op.registerOp, Op.registerOp])
      0 true [1, 2]).2.2.2.2 (by decide)

/-- C2: a cumulative ack (resp. nack) at bound t resolves exactly the
currently pending tags less than or equal to t as Ack (resp. Nack), keeps
exactly the tags greater than t pending, and succeeds; concretely, with
outstanding tags {1,2,3,5}, ack_all_before(4) resolves 1, 2, 3 as Ack,
leaves 5 pending, and a subsequent nack(5) resolves 5 as Nack. -/
theorem c2_cumulative_ack (s : Inner) (t : Nat) (b : Bool)
    (hnd : (keysOf s.pending).Nodup) :
    (∀ u, u ∈ keysOf (complete_pending_before s t b).2.pending ↔
      (u ∈ keysOf s.pending ∧ t < u)) ∧
    (∀ u ∈ keysOf s.pending, u ≤ t →
      ∃ m, Event.resolvedE u (confOf b m) ∈
        (complete_pending_before s t b).2.events) ∧
    (complete_pending_before s t b).1 = Except.ok () ∧
    (keysOf s135.pending = [5, 3, 2, 1] ∧
     keysOf (ack_all_before s135 4).2.pending = [5] ∧
     Event.resolvedE 1 (Confirmation.Ack none) ∈ (ack_all_before s135 4).2.events ∧
     Event.resolvedE 2 (Confirmation.Ack none) ∈ (ack_all_before s135 4).2.events ∧
     Event.resolvedE 3 (Confirmation.Ack none) ∈ (ack_all_before s135 4).2.events ∧
     (nack (ack_all_before s135 4).2 5).1 = Except.ok () ∧
     Event.resolvedE 5 (Confirmation.Nack none) ∈
       (nack (ack_all_before s135 4).2 5).2.events) := by
  have hsub : ∀ u ∈ (keysOf s.pending).filter (fun u => u ≤ t),
      u ∈ keysOf s.pending := fun u hu => (List.mem_filter.mp hu).1
  refine ⟨?_, ?_, ?_, by decide⟩
  · intro u
    rw [show complete_pending_before s t b =
          complete_tags s (Except.ok ())
            ((keysOf s.pending).filter (fun u => u ≤ t)) b from rfl]
    rw [complete_tags_mem_keys]
    constructor
    · rintro ⟨h1, h2⟩
      refine ⟨h1, ?_⟩
      by_contra hle
      push_neg at hle
      exact h2 (List.mem_filter.mpr ⟨h1, by simpa using hle⟩)
    · rintro ⟨h1, h2⟩
      refine ⟨h1, fun hin => ?_⟩
      have := (List.mem_filter.mp hin).2
      simp at this
      omega
  · intro u hu hle
    exact complete_tags_resolves _ s (Except.ok ()) b (hnd.filter _) u
      (List.mem_filter.mpr ⟨hu, by simpa using hle⟩) hu
  · exact complete_tags_acc _ s (Except.ok ()) b (hnd.filter _) hsub

/-- Witness for C2 at the concrete table {1,2,3,5}: tag 5 stays pending after
ack_all_before(4), tag 3 got resolved as an Ack, and the call succeeded. -/
theorem c2_cumulative_ack_witness :
    (5 ∈ keysOf (complete_pending_before s135 4 true).2.pending ↔
      (5 ∈ keysOf s135.pending ∧ 4 < 5)) ∧
    (∃ m, Event.resolvedE 3 (confOf true m) ∈
      (complete_pending_before s135 4 true).2.events) ∧
    (complete_pending_before s135 4 true).1 = Except.ok () := by
  have h := c2_cumulative_ack s135 4 true (by decide)
  exact ⟨h.1 5, h.2.1 3 (by decide) (by decide), h.2.2.1⟩

/-- C8: every resolution queries the returned-message collaborator exactly
once for its entry, before broadcasting: a single ack/nack consumes the queue
head and its confirmation carries exactly that optional message, a full drain
consumes one message per drained entry (pairing the i-th drained entry with
the i-th buffered message), and a cumulative resolution of k distinct pending
tags consumes exactly k messages — once per resolved entry, not per batch. -/
theorem c8_returned_message_per_entry (s : Inner) (t : Nat) (b : Bool)
    (bc : Bcast) (ts : List Nat)
    (hp : lookupA s.pending t = some bc) (hnd : ts.Nodup)
    (hsub : ∀ u ∈ ts, u ∈ keysOf s.pending) :
    drop_pending s t b =
      (Except.ok (),
       { s with pending := eraseA s.pending t,
                returned_messages := s.returned_messages.tail,
                events := s.events ++
                  [Event.resolvedE t (confOf b s.returned_messages.head?)] }) ∧
    drop_all s b =
      { s with pending := [],
               returned_messages := s.returned_messages.drop s.pending.length,
               events := s.events ++
                 batch_events b (keysOf s.pending) s.returned_messages } ∧
    (complete_tags s (Except.ok ()) ts b).2.returned_messages =
      s.returned_messages.drop ts.length :=
  ⟨drop_pending_eq_present s t b bc hp, drop_all_eq s b,
   complete_tags_returned ts s (Except.ok ()) b hnd hsub⟩

/-- Witness for C8: two publishes with buffered messages [10, 20]: acking tag
1 resolves it as Ack carrying message 10 and leaves [20] buffered; resolving
both tags consumes both messages. -/
theorem c8_returned_message_per_entry_witness :
    Event.resolvedE 1 (confOf true (some 10)) ∈ (drop_pending sW8 1 true).2.events ∧
    (drop_pending sW8 1 true).2.returned_messages = [20] ∧
    (complete_tags sW8 (Except.ok ()) [1, 2] true).2.returned_messages = [] := by
  have h := c8_returned_message_per_entry sW8 1 true ⟨[0]⟩ [1, 2]
    (by decide) (by decide) (by decide)
  refine ⟨?_, ?_, ?_⟩
  · rw [h.1]
    decide
  · rw [h.1]
    rfl
  · rw [h.2.2]
    rfl

/-- C5: register_pending supersedes the last-pending slot: the previous slot
handle is de-registered from its still-pending entry and the new entry's
subscriber handle becomes the slot; after two consecutive register_pending
calls, get_last_pending returns exactly the second call's slot handle, while
the first call's entry is still in the pending map and resolvable by an
explicit ack, which resolves it. -/
theorem c5_slot_supersession (s : Inner) (oldT oldH : Nat) (b : Bcast)
    (hlast : s.last = some (oldT, oldH))
    (hb : lookupA s.pending oldT = some b)
    (hle : oldT ≤ s.delivery_tag.current) :
    lookupA (register_pending s).2.pending oldT = some (b.unsubscribe oldH) ∧
    (register_pending s).2.last =
      some (s.delivery_tag.current + 1, s.next_handle + 1) ∧
    (get_last_pending (register_pending (register_pending s).2).2).1 =
      some ((register_pending s).2.next_handle + 1) ∧
    (s.delivery_tag.current + 1) ∈
      keysOf (register_pending (register_pending s).2).2.pending ∧
    (drop_pending (register_pending (register_pending s).2).2
        (s.delivery_tag.current + 1) true).1 = Except.ok () ∧
    (∃ m, Event.resolvedE (s.delivery_tag.current + 1) (confOf true m) ∈
      (drop_pending (register_pending (register_pending s).2).2
        (s.delivery_tag.current + 1) true).2.events) := by
  have hne : oldT ≠ s.delivery_tag.current + 1 := by omega
  obtain ⟨f1c, f1d, f1l, f1r, f1n, f1e⟩ := register_pending_fields s
  obtain ⟨f2c, f2d, f2l, f2r, f2n, f2e⟩ :=
    register_pending_fields (register_pending s).2
  have hcur1 : (register_pending s).2.delivery_tag.current =
      s.delivery_tag.current + 1 := by rw [f1d]
  have hk1 : (s.delivery_tag.current + 1) ∈ keysOf (register_pending s).2.pending := by
    rw [register_pending_keys]
    exact List.mem_cons_self _ _
  have hk2 : (s.delivery_tag.current + 1) ∈
      keysOf (register_pending (register_pending s).2).2.pending := by
    rw [register_pending_keys]
    apply List.mem_cons_of_mem
    apply List.mem_filter.mpr
    refine ⟨hk1, ?_⟩
    rw [hcur1]
    simp
  obtain ⟨bc2, hbc2⟩ :=
    lookupA_isSome_of_mem _ _ hk2
  refine ⟨register_pending_old_entry s oldT oldH b hlast hne hb, f1l, ?_, hk2, ?_, ?_⟩
  · rw [hcur1] at f2l
    simp [get_last_pending, f2l]
  · rw [drop_pending_eq_present _ _ _ _ hbc2]
  · refine ⟨(register_pending (register_pending s).2).2.returned_messages.head?, ?_⟩
    rw [drop_pending_eq_present _ _ _ _ hbc2]
    simp

/-- Witness for C5: one publish, then two more register_pending calls: tag 1's
entry loses the superseded slot handle 1, get_last_pending yields the third
call's slot handle 5, and tag 2 (the second call's entry) is still pending and
ackable. -/
theorem c5_slot_supersession_witness :
    lookupA (register_pending sC5base).2.pending 1 = some ⟨[0]⟩ ∧
    (get_last_pending (register_pending (register_pending sC5base).2).2).1 =
      some 5 ∧
    2 ∈ keysOf (register_pending (register_pending sC5base).2).2.pending ∧
    (drop_pending (register_pending (register_pending sC5base).2).2 2 true).1 =
      Except.ok () := by
  have h := c5_slot_supersession sC5base 1 1 ⟨[0, 1]⟩ (by decide) (by decide) (by decide)
  exact ⟨h.1, h.2.2.1, h.2.2.2.1, h.2.2.2.2.1⟩

/-- Counterexample to C9 as stated: after the only publish is settled by
ack_all_pending the pending map is empty, yet get_last_pending still returns
the slot handle instead of nothing. -/
theorem c9_counterexample :
    (run (Inner.new 0 []) [Op.registerOp, Op.ackAllPendingOp]).pending = [] ∧
    (get_last_pending (run (Inner.new 0 []) [Op.registerOp, Op.ackAllPendingOp])).1 ≠
      none := by
  decide

/-- C9 amended: get_last_pending takes and returns the current slot handle,
and returns nothing exactly when no slot is held (no publish registered since
the slot was last taken); the settling operations (full drains, channel
error, individual drops) never clear the slot, so an empty pending map does
not by itself make get_last_pending return nothing. -/
theorem c9_get_last_pending (s : Inner) (e : Err) (t : Nat) (b : Bool) :
    (get_last_pending s).1 = s.last.map (fun p => p.2) ∧
    (get_last_pending s).2.last = none ∧
    ((get_last_pending s).1 = none ↔ s.last = none) ∧
    (drop_all s b).last = s.last ∧
    (on_channel_error s e).last = s.last ∧
    (drop_pending s t b).2.last = s.last := by
  refine ⟨?_, ?_, ?_, ?_, rfl, (drop_pending_frame s t b).2.2.1⟩
  · cases h : s.last with
    | none => simp [get_last_pending, h]
    | some p => simp [get_last_pending, h]
  · cases h : s.last with
    | none => simp [get_last_pending, h]
    | some p => simp [get_last_pending, h]
  · cases h : s.last with
    | none => simp [get_last_pending, h]
    | some p => simp [get_last_pending, h]
  · rw [drop_all_eq]

/-- C7: the waiter registry deduplicates by will_wake equivalence: register is
a no-op when an equivalent handle is already present, the registry built by
any sequence of registrations holds exactly one handle per distinct task, and
wake() notifies each registered task exactly once and empties the registry —
registering the same task twice yields exactly one wake call for it. -/
theorem c7_waiter_dedup (tasks : List Waker) (w : Waker) :
    (tasks.foldl Wakers.register []).Nodup ∧
    (∀ u, u ∈ tasks.foldl Wakers.register [] ↔ u ∈ tasks) ∧
    (w ∈ tasks → (tasks.foldl Wakers.register []).register w =
      tasks.foldl Wakers.register []) ∧
    ((tasks.foldl Wakers.register []).wake).2 = [] ∧
    (w ∈ tasks → ((tasks.foldl Wakers.register []).wake).1.count w = 1) ∧
    (w ∉ tasks → ((tasks.foldl Wakers.register []).wake).1.count w = 0) := by
  have hnd := foldl_register_nodup tasks [] List.nodup_nil
  have hmem : ∀ u, u ∈ tasks.foldl Wakers.register [] ↔ u ∈ tasks := by
    intro u
    rw [foldl_register_mem]
    simp
  refine ⟨hnd, hmem, ?_, rfl, ?_, ?_⟩
  · intro hw
    exact register_noop_of_mem _ w ((hmem w).mpr hw)
  · intro hw
    have h1 : (tasks.foldl Wakers.register []).count w ≤ 1 :=
      List.nodup_iff_count_le_one.mp hnd w
    have h2 : 0 < (tasks.foldl Wakers.register []).count w :=
      List.count_pos_iff.mpr ((hmem w).mpr hw)
    show (tasks.foldl Wakers.register []).count w = 1
    omega
  · intro hw
    show (tasks.foldl Wakers.register []).count w = 0
    exact List.count_eq_zero_of_not_mem (fun hm => hw ((hmem w).mp hm))

/-- Witness for C7: registering task 3 twice (and task 4 once) then waking
produces exactly one wake call for task 3 and empties the registry. -/
theorem c7_waiter_dedup_witness :
    (([3, 3, 4].foldl Wakers.register []).wake).1.count 3 = 1 ∧
    (([3, 3, 4].foldl Wakers.register []).wake).2 = [] :=
  ⟨(c7_waiter_dedup [3, 3, 4] 3).2.2.2.2.1 (by decide),
   (c7_waiter_dedup [3, 3, 4] 3).2.2.2.1⟩

end Lapin
